import Mathlib

/-!
Verification of the SaintPopeye Connect streaming client.

The definitions below are a shallow embedding of the protocol and state
logic of the repository: the class OllamaService (methods streamChat,
pullModel, listModels), the React App handlers handleSendMessage and
fetchModels, and the Sidebar PullProgress renderer.  Text is modelled as
List Char (the stateful TextDecoder of the source is abstracted away: a
chunk is the decoded text of one read).  JSON.parse is modelled as an
opaque function returning Option: none stands for a thrown parse error.
JavaScript truthiness of a string is emptiness, of a number is being
nonzero, of an optional field is presence.
-/

/-- Role of a chat message, from the ChatMessage interface of the source. -/
inductive Role
  | user
  | assistant
  deriving DecidableEq

/-- ChatMessage of the source: role, content text, optional base64 images. -/
structure ChatMessage where
  role : Role
  content : List Char
  images : Option (List (List Char)) := none
  deriving DecidableEq

/-- Parsed chat stream record (OllamaChatChunk of the source).  The field
content is message.content; the empty list also stands for an absent
message field, since both are falsy in the guard
`if (chunk.message && chunk.message.content)`. -/
structure OllamaChatChunk where
  content : List Char
  done : Bool
  deriving DecidableEq

/-- Parsed pull stream record (OllamaPullStatus of the source). -/
structure OllamaPullStatus where
  status : List Char
  digest : Option (List Char) := none
  total : Option Int := none
  completed : Option Int := none
  error : Option (List Char) := none
  deriving DecidableEq

/-- Model summary (OllamaModel of the source). -/
structure OllamaModel where
  name : List Char
  modified_at : List Char
  size : Int
  deriving DecidableEq

/-- Merge a pending line fragment into a (lines, remainder) pair, the way
text preceding an already split buffer extends its first line: if there
are no complete lines the fragment extends the remainder. -/
def consume (r : List Char) : List (List Char) × List Char → List (List Char) × List Char
  | ([], t) => ([], r ++ t)
  | (l :: ls, t) => ((r ++ l) :: ls, t)

/-- Repeatedly scanning a buffer for the next newline, as the inner loop of
streamChat does with indexOf and substring: returns the complete lines in
order together with the unterminated remainder after the last newline. -/
def splitLines : List Char → List (List Char) × List Char
  | [] => ([], [])
  | c :: cs =>
    if c = '\n' then ([] :: (splitLines cs).1, (splitLines cs).2)
    else consume [c] (splitLines cs)

/-- Truthiness of jsonStr.trim(): the line holds some non-whitespace
character. -/
def jsTrimNonempty (l : List Char) : Bool := l.any (fun c => !c.isWhitespace)

/-- Per-line consumption of streamChat: a line that is whitespace-only is
skipped; otherwise it is parsed, a throwing parse is caught and the line
discarded; a parsed record emits message.content when truthy, and done
ends consumption at once (the `return` of the source), dropping every
later line.  Returns the emitted deltas and whether done was seen. -/
def procLines (parse : List Char → Option OllamaChatChunk) :
    List (List Char) → List (List Char) × Bool
  | [] => ([], false)
  | l :: ls =>
    if jsTrimNonempty l then
      match parse l with
      | some c =>
        if c.done then ((if c.content = [] then [] else [c.content]), true)
        else ((if c.content = [] then [] else [c.content]) ++ (procLines parse ls).1,
              (procLines parse ls).2)
      | none => procLines parse ls
    else procLines parse ls

/-- Outcome of a full streamChat read loop: the deltas handed to onChunk in
order, how many data chunks were read, and whether a done record ended the
loop early. -/
structure ChatRun where
  emitted : List (List Char)
  reads : Nat
  stopped : Bool
  deriving DecidableEq

/-- The read loop of streamChat: on each chunk the decoded text is appended
to the carried buffer, every complete line of the buffer is consumed in
order, and a done record returns at once so later chunks are never read;
at end of stream the loop breaks and the unterminated remainder of the
buffer is discarded. -/
def streamChatRun (parse : List Char → Option OllamaChatChunk) :
    List (List Char) → List Char → ChatRun
  | [], _ => ⟨[], 0, false⟩
  | ch :: rest, buf =>
    if (procLines parse (splitLines (buf ++ ch)).1).2 then
      ⟨(procLines parse (splitLines (buf ++ ch)).1).1, 1, true⟩
    else
      ⟨(procLines parse (splitLines (buf ++ ch)).1).1 ++
          (streamChatRun parse rest (splitLines (buf ++ ch)).2).emitted,
        (streamChatRun parse rest (splitLines (buf ++ ch)).2).reads + 1,
        (streamChatRun parse rest (splitLines (buf ++ ch)).2).stopped⟩

/-- Newline-terminated encoding of a record sequence: each record followed
by a newline, concatenated. -/
def encodeRecords (rs : List (List Char)) : List Char :=
  (rs.map (fun r => r ++ ['\n'])).flatten

/-- JavaScript String.split on the newline character: all segments,
including empty ones and the segment after the last newline. -/
def jsSplit (chunk : List Char) : List (List Char) :=
  (splitLines chunk).1 ++ [(splitLines chunk).2]

/-- Per-chunk consumption of pullModel: the chunk is split on newlines with
no buffer carried between reads, whitespace-only segments are filtered
out, each surviving segment is parsed, and a throwing parse is caught,
logged and the segment discarded. -/
def pullChunkEvents (parse : List Char → Option OllamaPullStatus) (chunk : List Char) :
    List OllamaPullStatus :=
  ((jsSplit chunk).filter jsTrimNonempty).filterMap parse

/-- The read loop of pullModel: each chunk is consumed independently, in
order, and every parsed event is handed to onProgress. -/
def pullRun (parse : List Char → Option OllamaPullStatus) (chunks : List (List Char)) :
    List OllamaPullStatus :=
  (chunks.map (pullChunkEvents parse)).flatten

/-- Truthiness of an optional numeric field of a pull status record. -/
def jsTruthy : Option Int → Bool
  | none => false
  | some n => n != 0

/-- Guard of the PullProgress renderer of Sidebar: the determinate bar is
rendered exactly when `status.total && status.completed` is truthy. -/
def pullBarShown (s : OllamaPullStatus) : Bool :=
  jsTruthy s.total && jsTruthy s.completed

/-- Percentage computed by PullProgress:
`(status.completed / status.total) * 100` under the same truthiness guard,
else 0.  Numbers are modelled as exact rationals. -/
def pullPercentage (s : OllamaPullStatus) : ℚ :=
  if pullBarShown s then (((s.completed.getD 0 : Int) : ℚ) / ((s.total.getD 0 : Int) : ℚ)) * 100
  else 0

/-- The onChunk callback of handleSendMessage: replace the message at index
length - 1 by a copy whose content has the delta appended.  On an empty
history the negative index write of the source changes nothing. -/
def appendToLast : List ChatMessage → List Char → List ChatMessage
  | [], _ => []
  | [m], chunk => [{ m with content := m.content ++ chunk }]
  | m :: ms, chunk => m :: appendToLast ms chunk

/-- Error text formatting of the catch branch of handleSendMessage. -/
def errFmt (e : List Char) : List Char := "Error: ".data ++ e

/-- Inline error appended when submitting with no model selected. -/
def noModelError : ChatMessage :=
  ⟨Role.assistant, "Error: Please select a model from the sidebar first.".data, none⟩

/-- The catch branch of handleSendMessage: if the last message is an
assistant message with empty content its content is replaced by the
formatted error, otherwise a fresh assistant error message is appended. -/
def handleStreamError (prev : List ChatMessage) (errorMessage : List Char) :
    List ChatMessage :=
  match prev.getLast? with
  | some m =>
    if m.role = Role.assistant ∧ m.content = [] then
      prev.dropLast ++ [{ m with content := errFmt errorMessage }]
    else prev ++ [⟨Role.assistant, errFmt errorMessage, none⟩]
  | none => prev ++ [⟨Role.assistant, errFmt errorMessage, none⟩]

/-- What the awaited streamChat call produced for one submission: the
deltas delivered to onChunk before the call settled, and the error message
of the rejection when it rejected. -/
structure StreamOutcome where
  chunks : List (List Char)
  failure : Option (List Char)

/-- Result of one handleSendMessage invocation: the final history and
whether a network request was issued. -/
structure SendOutcome where
  messages : List ChatMessage
  networkCalled : Bool
  deriving DecidableEq

/-- handleSendMessage of App: with no model selected an inline error is
appended and the handler returns before any request; otherwise the user
message and an empty assistant placeholder are appended, every delivered
delta is appended to the last message, and a rejection is routed through
the catch branch. -/
def handleSendMessage (selectedModel : List Char) (prev : List ChatMessage)
    (message : List Char) (images : Option (List (List Char)))
    (outcome : StreamOutcome) : SendOutcome :=
  if selectedModel = [] then ⟨prev ++ [noModelError], false⟩
  else
    match outcome.failure with
    | none =>
      ⟨outcome.chunks.foldl appendToLast
          ((prev ++ [⟨Role.user, message, images⟩]) ++ [⟨Role.assistant, [], none⟩]), true⟩
    | some e =>
      ⟨handleStreamError
          (outcome.chunks.foldl appendToLast
            ((prev ++ [⟨Role.user, message, images⟩]) ++ [⟨Role.assistant, [], none⟩])) e, true⟩

/-- Model-list state of App: the model set, the selected model name and
whether the connection-error panel is shown (true models a non-null error
message). -/
structure ModelsState where
  models : List OllamaModel
  selectedModel : List Char
  error : Bool
  deriving DecidableEq

/-- Result of the awaited listModels call: the parsed model list, or
failure (unreachable server or a non-ok status, both thrown). -/
inductive ListResult
  | ok (models : List OllamaModel)
  | fail

/-- fetchModels of App: on success the model set is replaced wholesale and
the selection is switched to the first model when absent from the new
list, or cleared when the list is empty; on failure the error panel is
shown, the model set emptied and the selection cleared. -/
def fetchModels (st : ModelsState) (result : ListResult) : ModelsState :=
  match result with
  | .ok data =>
    if 0 < data.length ∧ ∀ m ∈ data, m.name ≠ st.selectedModel then
      { models := data,
        selectedModel := match data with | m :: _ => m.name | [] => st.selectedModel,
        error := false }
    else if data.length = 0 then
      { models := data, selectedModel := [], error := false }
    else
      { models := data, selectedModel := st.selectedModel, error := false }
  | .fail => { models := [], selectedModel := [], error := true }

/-- Concrete record sequence for evaluating the chat decoder: the lines
accepted by parseChatDemo, ending in a done record. -/
def chatRecsDemo : List (List Char) :=
  ["chat Hel".data, "chat lo".data, "chat world".data, "chat end".data]

/-- One concrete chunking of the newline-terminated encoding of
chatRecsDemo followed by the unterminated trailing text tail: boundaries
fall inside records, right after a newline, and inside the trailing
text. -/
def chatChunksDemo : List (List Char) :=
  ["chat H".data, "el\nchat lo\nch".data, "at world\n".data, "chat end\nta".data, "il".data]

/-- Concrete chat parse function used on concrete inputs: the restriction
of JSON.parse to four fixed record lines, every other string (in
particular every fragment of these lines) failing to parse. -/
def parseChatDemo (l : List Char) : Option OllamaChatChunk :=
  if l = "chat Hel".data then some ⟨"Hel".data, false⟩
  else if l = "chat lo".data then some ⟨"lo, ".data, false⟩
  else if l = "chat world".data then some ⟨"world".data, false⟩
  else if l = "chat end".data then some ⟨[], true⟩
  else none

/-- Concrete pull record line standing for the JSON text of one progress
record. -/
def pullRecDemo : List Char := "pull status A".data

/-- Parsed event of pullRecDemo. -/
def pullEvtDemo : OllamaPullStatus := ⟨"A".data, none, none, none, none⟩

/-- Concrete pull parse function: the restriction of JSON.parse to two
fixed record lines, every other string (in particular every fragment of
these lines) failing to parse. -/
def parsePullDemo (l : List Char) : Option OllamaPullStatus :=
  if l = pullRecDemo then some pullEvtDemo
  else if l = "pull status B".data then some ⟨"B".data, none, none, none, none⟩
  else none

/-- Consuming an empty fragment changes nothing. -/
theorem consume_nil (p : List (List Char) × List Char) : consume [] p = p := by
  rcases p with ⟨_ | ⟨l, ls⟩, t⟩ <;> simp [consume]

/-- Fragments are consumed one after the other. -/
theorem consume_append (a b : List Char) (p : List (List Char) × List Char) :
    consume (a ++ b) p = consume a (consume b p) := by
  rcases p with ⟨_ | ⟨l, ls⟩, t⟩ <;> simp [consume]

/-- A newline-free buffer has no complete line: it is all remainder. -/
theorem splitLines_of_not_mem {l : List Char} (h : '\n' ∉ l) : splitLines l = ([], l) := by
  induction l with
  | nil => simp [splitLines]
  | cons c cs ih =>
    simp only [List.mem_cons, not_or] at h
    have hc : c ≠ '\n' := fun hcc => h.1 hcc.symm
    simp [splitLines, hc, ih h.2, consume]

/-- The remainder left by the line scanner never holds a newline. -/
theorem splitLines_snd (l : List Char) : '\n' ∉ (splitLines l).2 := by
  induction l with
  | nil => simp [splitLines]
  | cons c cs ih =>
    by_cases hc : c = '\n'
    · simpa [splitLines, hc] using ih
    · rcases hp : splitLines cs with ⟨ls, t⟩
      rw [hp] at ih
      cases ls with
      | nil =>
        simp only [splitLines, if_neg hc, hp, consume]
        simp only [List.cons_append, List.nil_append, List.mem_cons, not_or]
        exact ⟨fun hcc => hc hcc.symm, ih⟩
      | cons m ms =>
        simpa [splitLines, hc, hp, consume] using ih

/-- Scanning a concatenation: the lines of the left part come first, and its
remainder is consumed into the scan of the right part. -/
theorem splitLines_append (a b : List Char) :
    splitLines (a ++ b) =
      ((splitLines a).1 ++ (consume (splitLines a).2 (splitLines b)).1,
        (consume (splitLines a).2 (splitLines b)).2) := by
  induction a with
  | nil => simp [splitLines, consume_nil]
  | cons c a ih =>
    by_cases hc : c = '\n'
    · simp [splitLines, hc, ih]
    · rcases hp : splitLines a with ⟨_ | ⟨m, ms⟩, t⟩ <;>
        rcases hq : splitLines b with ⟨_ | ⟨n, ns⟩, u⟩ <;>
          simp [splitLines, hc, ih, hp, hq, consume, consume_append, List.append_assoc]

/-- Line consumption over a concatenation of line lists: when a done record
sits in the first part the second part is never reached, otherwise the
emissions concatenate. -/
theorem procLines_append (parse : List Char → Option OllamaChatChunk)
    (ls ms : List (List Char)) :
    procLines parse (ls ++ ms) =
      if (procLines parse ls).2 then procLines parse ls
      else ((procLines parse ls).1 ++ (procLines parse ms).1, (procLines parse ms).2) := by
  induction ls with
  | nil => simp [procLines]
  | cons l ls ih =>
    by_cases ht : jsTrimNonempty l
    · cases hp : parse l with
      | none => simpa [procLines, ht, hp] using ih
      | some c =>
        by_cases hd : c.done
        · simp [procLines, ht, hp, hd]
        · by_cases hstop : (procLines parse ls).2
          · simp [procLines, ht, hp, hd, ih, hstop]
          · simp [procLines, ht, hp, hd, ih, hstop, List.append_assoc]
    · simpa [procLines, ht] using ih

/-- What a full streamChat read loop emits is the canonical in-order
consumption of the complete lines of the whole byte stream, whatever the
chunking: the loop state (the pending buffer) never changes the delivered
sequence. -/
theorem streamChatRun_emitted (parse : List Char → Option OllamaChatChunk)
    (cs : List (List Char)) :
    ∀ buf : List Char, '\n' ∉ buf →
      (streamChatRun parse cs buf).emitted =
        (procLines parse (splitLines (buf ++ cs.flatten)).1).1 := by
  induction cs with
  | nil =>
    intro buf hbuf
    simp [streamChatRun, splitLines_of_not_mem hbuf, procLines]
  | cons ch rest ih =>
    intro buf hbuf
    have hsnd := splitLines_snd (buf ++ ch)
    have key : splitLines (buf ++ (ch ++ rest.flatten)) =
        ((splitLines (buf ++ ch)).1 ++
            (consume (splitLines (buf ++ ch)).2 (splitLines rest.flatten)).1,
          (consume (splitLines (buf ++ ch)).2 (splitLines rest.flatten)).2) := by
      rw [← List.append_assoc, splitLines_append]
    have ktail : splitLines ((splitLines (buf ++ ch)).2 ++ rest.flatten) =
        consume (splitLines (buf ++ ch)).2 (splitLines rest.flatten) := by
      rw [splitLines_append, splitLines_of_not_mem hsnd]
      simp
    by_cases hstop : (procLines parse (splitLines (buf ++ ch)).1).2
    · simp only [streamChatRun, hstop, if_true, List.flatten_cons, key, procLines_append,
        if_pos hstop]
    · have ihx := ih (splitLines (buf ++ ch)).2 hsnd
      rw [ktail] at ihx
      simp only [streamChatRun, hstop, if_false, Bool.false_eq_true, List.flatten_cons, key,
        procLines_append, if_neg hstop, ihx]

/-- Scanning the newline-terminated encoding of newline-free records
followed by newline-free trailing text recovers exactly the records as
complete lines and the trailing text as remainder. -/
theorem splitLines_encode (rs : List (List Char)) (t : List Char)
    (hr : ∀ r ∈ rs, '\n' ∉ r) (ht : '\n' ∉ t) :
    splitLines (encodeRecords rs ++ t) = (rs, t) := by
  induction rs with
  | nil => simp [encodeRecords, splitLines_of_not_mem ht]
  | cons r rs ih =>
    have hrr : '\n' ∉ r := hr r (by simp)
    have hrs : ∀ x ∈ rs, '\n' ∉ x := fun x hx => hr x (by simp [hx])
    have h1 : splitLines (r ++ ['\n']) = ([r], []) := by
      rw [splitLines_append, splitLines_of_not_mem hrr]
      simp [splitLines, consume]
    have harr : encodeRecords (r :: rs) ++ t = (r ++ ['\n']) ++ (encodeRecords rs ++ t) := by
      simp [encodeRecords, List.append_assoc]
    rw [harr, splitLines_append, h1, ih hrs]
    rcases rs with _ | ⟨x, xs⟩ <;> simp [consume]

/-- C1: for every fixed sequence of newline-terminated chat records and
every way of splitting its bytes (with any newline-free unterminated
trailing text) into chunks, streamChat delivers to onChunk exactly the
canonical in-order consumption of the record sequence — no record
duplicated, dropped or reordered by the chunking — and the trailing
unterminated record is never delivered. -/
theorem C1_chat_chunking_invariant
    (parse : List Char → Option OllamaChatChunk)
    (rs : List (List Char)) (t : List Char) (cs : List (List Char))
    (hr : ∀ r ∈ rs, '\n' ∉ r) (ht : '\n' ∉ t)
    (hcs : cs.flatten = encodeRecords rs ++ t) :
    (streamChatRun parse cs []).emitted = (procLines parse rs).1 := by
  have h := streamChatRun_emitted parse cs [] (by simp)
  rw [List.nil_append, hcs, splitLines_encode rs t hr ht] at h
  exact h

/-- Witness for C1 at a concrete chunking whose boundaries fall inside
records, right after newlines, and inside the trailing text. -/
theorem C1_chat_chunking_invariant_witness :
    (∀ r ∈ chatRecsDemo, '\n' ∉ r) ∧ '\n' ∉ "tail".data ∧
      chatChunksDemo.flatten = encodeRecords chatRecsDemo ++ "tail".data ∧
      (streamChatRun parseChatDemo chatChunksDemo []).emitted =
        (procLines parseChatDemo chatRecsDemo).1 :=
  ⟨by decide, by decide, by decide,
    C1_chat_chunking_invariant parseChatDemo chatRecsDemo "tail".data chatChunksDemo
      (by decide) (by decide) (by decide)⟩

/-- C3: once a parsed record has done set, consumption of the stream ends
immediately: appending further chunks to the connection changes nothing —
no further record is delivered and no further chunk is read (the whole run
outcome, read count included, is unchanged) — and complete records still
sitting after the done record in the same buffer are likewise never
delivered. -/
theorem C3_done_stops_consumption :
    (∀ (parse : List Char → Option OllamaChatChunk) (chunks extra : List (List Char))
        (buf : List Char),
        (streamChatRun parse chunks buf).stopped = true →
        streamChatRun parse (chunks ++ extra) buf = streamChatRun parse chunks buf)
    ∧ ∀ (parse : List Char → Option OllamaChatChunk) (ls ms : List (List Char)),
        (procLines parse ls).2 = true →
        procLines parse (ls ++ ms) = procLines parse ls := by
  constructor
  · intro parse chunks
    induction chunks with
    | nil =>
      intro extra buf h
      simp [streamChatRun] at h
    | cons ch rest ih =>
      intro extra buf h
      by_cases hstop : (procLines parse (splitLines (buf ++ ch)).1).2
      · simp [streamChatRun, hstop]
      · have h2 : (streamChatRun parse rest (splitLines (buf ++ ch)).2).stopped = true := by
          simpa [streamChatRun, hstop] using h
        simp [streamChatRun, hstop, ih extra _ h2]
  · intro parse ls ms h
    rw [procLines_append, if_pos h]

/-- Witness for C3: a done record in the first chunk makes a further chunk
irrelevant, and a record after the done record in the same buffer is never
delivered. -/
theorem C3_done_stops_consumption_witness :
    (streamChatRun parseChatDemo ["chat end\n".data] []).stopped = true ∧
      streamChatRun parseChatDemo (["chat end\n".data] ++ ["chat Hel\n".data]) [] =
        streamChatRun parseChatDemo ["chat end\n".data] [] ∧
      (procLines parseChatDemo ["chat end".data]).2 = true ∧
      procLines parseChatDemo (["chat end".data] ++ ["chat Hel".data]) =
        procLines parseChatDemo ["chat end".data] :=
  ⟨by decide,
    C3_done_stops_consumption.1 parseChatDemo ["chat end\n".data] ["chat Hel\n".data] []
      (by decide),
    by decide,
    C3_done_stops_consumption.2 parseChatDemo ["chat end".data] ["chat Hel".data] (by decide)⟩

/-- One pullModel chunk holding a whole number of newline-terminated
records yields exactly the parses of its non-blank records, in order. -/
theorem pullChunkEvents_encode (parse : List Char → Option OllamaPullStatus)
    (rs : List (List Char)) (hr : ∀ r ∈ rs, '\n' ∉ r) :
    pullChunkEvents parse (encodeRecords rs) = (rs.filter jsTrimNonempty).filterMap parse := by
  have h : splitLines (encodeRecords rs) = (rs, []) := by
    simpa using splitLines_encode rs [] hr (by simp)
  simp [pullChunkEvents, jsSplit, h, jsTrimNonempty]

/-- C2 counterexample: the same newline-terminated pull record delivered in
two reads split mid-record produces no event at all (each fragment fails
to parse and is discarded, pullModel carrying no buffer between reads),
although the two chunks are a byte-chunking of one complete record; and a
record with no terminating newline at all is nevertheless delivered. -/
theorem C2_pull_split_record_cex :
    pullRun parsePullDemo ["pull stat".data, "us A\n".data] = [] ∧
      ["pull stat".data, "us A\n".data].flatten = encodeRecords [pullRecDemo] ∧
      pullRun parsePullDemo [pullRecDemo] = [pullEvtDemo] := by
  decide

/-- C2 amended: pullModel splits each read chunk on newlines independently,
with no buffer carried between reads.  When every chunk holds a whole
number of newline-terminated records, every non-blank record is parsed and
delivered exactly once, in order, none duplicated, dropped or reordered; a
record split across two reads is however lost, and a trailing unterminated
record is delivered (see the counterexample). -/
theorem C2_pull_aligned_delivery (parse : List Char → Option OllamaPullStatus)
    (rss : List (List (List Char)))
    (h : ∀ rs ∈ rss, ∀ r ∈ rs, '\n' ∉ r) :
    pullRun parse (rss.map encodeRecords) =
      (rss.flatten.filter jsTrimNonempty).filterMap parse := by
  induction rss with
  | nil => simp [pullRun]
  | cons rs rss ih =>
    have h1 : ∀ r ∈ rs, '\n' ∉ r := h rs (by simp)
    have h2 : ∀ x ∈ rss, ∀ r ∈ x, '\n' ∉ r := fun x hx => h x (by simp [hx])
    simp only [List.map_cons, pullRun, List.flatten_cons, List.filter_append,
      List.filterMap_append]
    rw [pullChunkEvents_encode parse rs h1]
    congr 1
    simpa [pullRun] using ih h2

/-- Witness for C2 amended at a concrete two-chunk record-aligned run. -/
theorem C2_pull_aligned_delivery_witness :
    (∀ rs ∈ [[pullRecDemo], ["pull status B".data, pullRecDemo]], ∀ r ∈ rs, '\n' ∉ r) ∧
      pullRun parsePullDemo
          ([[pullRecDemo], ["pull status B".data, pullRecDemo]].map encodeRecords) =
        (([[pullRecDemo], ["pull status B".data, pullRecDemo]].flatten.filter
            jsTrimNonempty).filterMap parsePullDemo) :=
  ⟨by decide, C2_pull_aligned_delivery parsePullDemo _ (by decide)⟩

/-- C6: in both decoders a line that fails to parse is discarded and
decoding continues with the subsequent records of the same stream: for
streamChat, deleting a failing line from the consumed lines leaves the
outcome unchanged; for pullModel, deleting a read consisting of one
failing newline-terminated record leaves the delivered events unchanged.
Both consumers are total functions: a malformed record never terminates
the stream and never makes the operation reject. -/
theorem C6_malformed_record_skipped :
    (∀ (parse : List Char → Option OllamaChatChunk) (pre post : List (List Char))
        (bad : List Char), parse bad = none →
        procLines parse (pre ++ bad :: post) = procLines parse (pre ++ post))
    ∧ ∀ (parse : List Char → Option OllamaPullStatus) (cs ds : List (List Char))
        (bad : List Char), '\n' ∉ bad → parse bad = none →
        pullRun parse (cs ++ (bad ++ ['\n']) :: ds) = pullRun parse (cs ++ ds) := by
  constructor
  · intro parse pre post bad hbad
    induction pre with
    | nil => simp [procLines, hbad]
    | cons l pre ih =>
      by_cases ht : jsTrimNonempty l
      · cases hp : parse l with
        | none => simpa [procLines, ht, hp] using ih
        | some c =>
          by_cases hd : c.done
          · simp [procLines, ht, hp, hd]
          · simp [procLines, ht, hp, hd, ih]
      · simpa [procLines, ht] using ih
  · intro parse cs ds bad hnl hbad
    have hsp : splitLines (bad ++ ['\n']) = ([bad], []) := by
      rw [splitLines_append, splitLines_of_not_mem hnl]
      simp [splitLines, consume]
    have hev : pullChunkEvents parse (bad ++ ['\n']) = [] := by
      by_cases ht : jsTrimNonempty bad
      · simp [pullChunkEvents, jsSplit, hsp, ht, hbad, jsTrimNonempty]
      · simp [pullChunkEvents, jsSplit, hsp, ht, jsTrimNonempty, hbad]
    simp [pullRun, hev]

/-- Witness for C6: a concrete failing line inside a chat line sequence and
a concrete failing pull read both leave the outcomes unchanged. -/
theorem C6_malformed_record_skipped_witness :
    parseChatDemo "oops".data = none ∧
      procLines parseChatDemo (["chat Hel".data] ++ "oops".data :: ["chat end".data]) =
        procLines parseChatDemo (["chat Hel".data] ++ ["chat end".data]) ∧
      '\n' ∉ "oops".data ∧ parsePullDemo "oops".data = none ∧
      pullRun parsePullDemo ([] ++ ("oops".data ++ ['\n']) :: [pullRecDemo]) =
        pullRun parsePullDemo ([] ++ [pullRecDemo]) :=
  ⟨by decide,
    C6_malformed_record_skipped.1 parseChatDemo ["chat Hel".data] ["chat end".data]
      "oops".data (by decide),
    by decide, by decide,
    C6_malformed_record_skipped.2 parsePullDemo [] [pullRecDemo] "oops".data
      (by decide) (by decide)⟩

/-- The onChunk update touches exactly the last message, appending the
delta to its content. -/
theorem appendToLast_concat (hist : List ChatMessage) (m : ChatMessage) (c : List Char) :
    appendToLast (hist ++ [m]) c = hist ++ [{ m with content := m.content ++ c }] := by
  induction hist with
  | nil => rfl
  | cons x hist ih =>
    cases hist with
    | nil => rfl
    | cons y ys =>
      calc appendToLast ((x :: y :: ys) ++ [m]) c
          = x :: appendToLast ((y :: ys) ++ [m]) c := rfl
        _ = x :: ((y :: ys) ++ [{ m with content := m.content ++ c }]) := by rw [ih]
        _ = (x :: y :: ys) ++ [{ m with content := m.content ++ c }] := rfl

/-- Folding the onChunk update over a delta sequence appends the deltas, in
order, to the content of the last message and touches nothing else. -/
theorem foldl_appendToLast (ds : List (List Char)) :
    ∀ (hist : List ChatMessage) (m : ChatMessage),
      ds.foldl appendToLast (hist ++ [m]) =
        hist ++ [{ m with content := m.content ++ ds.flatten }] := by
  induction ds with
  | nil =>
    intro hist m
    simp
  | cons d ds ih =>
    intro hist m
    simp only [List.foldl_cons, appendToLast_concat, ih, List.flatten_cons,
      List.append_assoc]

/-- C4: starting from an empty assistant placeholder, after any delta
sequence the placeholder content is exactly the concatenation of all
deltas delivered so far, in order, the rest of the history untouched —
content only grows by appending; and concretely the records carrying
deltas Hel, lo-comma-space, world followed by a done record stream exactly
those three deltas and accumulate to the final content Hello, world. -/
theorem C4_delta_accumulation :
    (∀ (hist : List ChatMessage) (ds : List (List Char)),
        ds.foldl appendToLast (hist ++ [⟨Role.assistant, [], none⟩]) =
          hist ++ [⟨Role.assistant, ds.flatten, none⟩])
    ∧ procLines parseChatDemo chatRecsDemo =
        (["Hel".data, "lo, ".data, "world".data], true)
    ∧ (procLines parseChatDemo chatRecsDemo).1.foldl appendToLast
        [⟨Role.assistant, [], none⟩] = [⟨Role.assistant, "Hello, world".data, none⟩] := by
  refine ⟨?_, by decide, by decide⟩
  intro hist ds
  simpa using foldl_appendToLast ds hist ⟨Role.assistant, [], none⟩

/-- Catch branch on a history ending in an empty assistant placeholder: the
placeholder content is replaced by the formatted error. -/
theorem handleStreamError_empty (hist : List ChatMessage) (e : List Char) :
    handleStreamError (hist ++ [⟨Role.assistant, [], none⟩]) e =
      hist ++ [⟨Role.assistant, errFmt e, none⟩] := by
  simp [handleStreamError, List.getLast?_concat, List.dropLast_concat]

/-- Catch branch on a history whose last message is not an empty assistant
placeholder: the history is kept whole and a fresh assistant error message
is appended after it. -/
theorem handleStreamError_nonempty (hist : List ChatMessage) (m : ChatMessage)
    (e : List Char) (h : ¬(m.role = Role.assistant ∧ m.content = [])) :
    handleStreamError (hist ++ [m]) e =
      (hist ++ [m]) ++ [⟨Role.assistant, errFmt e, none⟩] := by
  simp [handleStreamError, List.getLast?_concat, h]

/-- C5 counterexample: a submission that fails after the delta Hel has been
streamed leaves the partial message byte-identical and appends the
formatted error as a new third history entry; the result is not the
two-entry history the claim describes, in which the formatted error would
be appended to the partial content itself. -/
theorem C5_error_append_cex :
    handleSendMessage "m".data [] "hi".data none ⟨["Hel".data], some "boom".data⟩ =
      ⟨[⟨Role.user, "hi".data, none⟩, ⟨Role.assistant, "Hel".data, none⟩,
          ⟨Role.assistant, "Error: boom".data, none⟩], true⟩ ∧
      (handleSendMessage "m".data [] "hi".data none ⟨["Hel".data], some "boom".data⟩).messages ≠
        [⟨Role.user, "hi".data, none⟩,
          ⟨Role.assistant, "Hel".data ++ errFmt "boom".data, none⟩] := by
  decide

/-- C5 amended: a connection failure before any delta replaces the empty
placeholder content with the formatted error message; a failure after
deltas have been appended preserves the already-streamed partial content
unchanged and appends the formatted error to the history as a new
assistant message following it. -/
theorem C5_stream_error_handling (sel : List Char) (prev : List ChatMessage)
    (msg : List Char) (imgs : Option (List (List Char))) (e : List Char)
    (hsel : sel ≠ []) :
    ((handleSendMessage sel prev msg imgs ⟨[], some e⟩).messages =
        prev ++ [⟨Role.user, msg, imgs⟩, ⟨Role.assistant, errFmt e, none⟩])
    ∧ ∀ ds : List (List Char), ds.flatten ≠ [] →
        (handleSendMessage sel prev msg imgs ⟨ds, some e⟩).messages =
          prev ++ [⟨Role.user, msg, imgs⟩, ⟨Role.assistant, ds.flatten, none⟩,
            ⟨Role.assistant, errFmt e, none⟩] := by
  constructor
  · simp only [handleSendMessage, if_neg hsel, List.foldl_nil]
    rw [handleStreamError_empty]
    simp
  · intro ds hds
    simp only [handleSendMessage, if_neg hsel]
    rw [foldl_appendToLast, handleStreamError_nonempty]
    · simp
    · intro hh
      exact hds (by simpa using hh.2)

/-- Witness for C5 amended at a concrete failing submission, before any
delta and after the delta Hel. -/
theorem C5_stream_error_handling_witness :
    ("m".data : List Char) ≠ [] ∧ (["Hel".data] : List (List Char)).flatten ≠ [] ∧
      (handleSendMessage "m".data [] "hi".data none ⟨[], some "boom".data⟩).messages =
        [⟨Role.user, "hi".data, none⟩, ⟨Role.assistant, errFmt "boom".data, none⟩] ∧
      (handleSendMessage "m".data [] "hi".data none ⟨["Hel".data], some "boom".data⟩).messages =
        [⟨Role.user, "hi".data, none⟩, ⟨Role.assistant, "Hel".data, none⟩,
          ⟨Role.assistant, errFmt "boom".data, none⟩] := by
  refine ⟨by decide, by decide, ?_, ?_⟩
  · simpa using
      (C5_stream_error_handling "m".data [] "hi".data none "boom".data (by decide)).1
  · simpa using
      (C5_stream_error_handling "m".data [] "hi".data none "boom".data (by decide)).2
        ["Hel".data] (by decide)

/-- C7: a chat submission with no model selected performs no network
request and appends exactly one inline error message to the history,
leaving the rest of the history unchanged, whatever the submission and
whatever the stream would have produced. -/
theorem C7_no_model_inline_error
    (prev : List ChatMessage) (msg : List Char) (imgs : Option (List (List Char)))
    (outcome : StreamOutcome) :
    handleSendMessage [] prev msg imgs outcome = ⟨prev ++ [noModelError], false⟩ := by
  simp [handleSendMessage]

/-- C9: a failed model-list refresh empties the model set, clears the
selected model and shows the error panel, whatever state preceded it. -/
theorem C9_list_failure_clears (st : ModelsState) :
    fetchModels st ListResult.fail = ⟨[], [], true⟩ := rfl

/-- C10: after every completed refresh the selected model is empty or a
member of the freshly fetched list; and a successful fetch of a non-empty
list not containing the previous selection switches the selection to the
first model of the new list. -/
theorem C10_selection_membership (st : ModelsState) (result : ListResult) :
    ((fetchModels st result).selectedModel = [] ∨
      (fetchModels st result).selectedModel ∈
        (fetchModels st result).models.map (fun m => m.name))
    ∧ ∀ (m : OllamaModel) (ms : List OllamaModel), result = ListResult.ok (m :: ms) →
        (∀ x ∈ m :: ms, x.name ≠ st.selectedModel) →
        (fetchModels st result).selectedModel = m.name := by
  cases result with
  | fail =>
    refine ⟨Or.inl rfl, ?_⟩
    intro m ms heq hall
    cases heq
  | ok data =>
    by_cases h1 : 0 < data.length ∧ ∀ m ∈ data, m.name ≠ st.selectedModel
    · cases data with
      | nil => exact absurd h1.1 (by simp)
      | cons m0 ms0 =>
        constructor
        · right
          simp only [fetchModels, if_pos h1]
          simp
        · intro m ms heq hall
          cases heq
          simp only [fetchModels, if_pos h1]
    · by_cases h2 : data.length = 0
      · have hd : data = [] := List.length_eq_zero.mp h2
        subst hd
        refine ⟨Or.inl ?_, ?_⟩
        · simp [fetchModels, h1]
        · intro m ms heq hall
          simp at heq
      · have h1' := h1
        push_neg at h1
        have hlen : 0 < data.length := Nat.pos_of_ne_zero h2
        obtain ⟨m1, hm1, hname⟩ := h1 hlen
        constructor
        · right
          have hmem : st.selectedModel ∈ data.map (fun m => m.name) :=
            List.mem_map.mpr ⟨m1, hm1, hname⟩
          simpa [fetchModels, h1', h2] using hmem
        · intro m ms heq hall
          cases heq
          exact absurd hname (hall m1 hm1)

/-- Witness for C10: a fresh one-model list not containing the previous
selection switches the selection to its first model. -/
theorem C10_selection_membership_witness :
    (fetchModels ⟨[], "old".data, false⟩
        (ListResult.ok [⟨"m1".data, "t".data, 5⟩])).selectedModel = "m1".data :=
  (C10_selection_membership ⟨[], "old".data, false⟩
      (ListResult.ok [⟨"m1".data, "t".data, 5⟩])).2 ⟨"m1".data, "t".data, 5⟩ [] rfl
    (by decide)

/-- C8 counterexample: an event with completed set to 0 and total 200 has
both fields present and total positive, yet the determinate bar is not
rendered — the truthiness guard of the source treats the number 0 as
absent, so this event displays as indeterminate rather than as the
determinate ratio 0. -/
theorem C8_zero_completed_cex :
    (OllamaPullStatus.mk "downloading".data none (some 200) (some 0) none).total =
        some 200 ∧
      (OllamaPullStatus.mk "downloading".data none (some 200) (some 0) none).completed =
        some 0 ∧
      pullBarShown (OllamaPullStatus.mk "downloading".data none (some 200) (some 0) none) =
        false := by
  decide

/-- C8 amended: the determinate bar is rendered iff total and completed are
both present and both nonzero, and then the displayed percentage is
exactly completed divided by total, times 100; an event with completed 0
is rendered indeterminate even when total is positive. -/
theorem C8_progress_truthiness (s : OllamaPullStatus) :
    (pullBarShown s = true ↔
      ∃ t c : Int, s.total = some t ∧ s.completed = some c ∧ t ≠ 0 ∧ c ≠ 0)
    ∧ ∀ t c : Int, s.total = some t → s.completed = some c → t ≠ 0 → c ≠ 0 →
        pullPercentage s = ((c : ℚ) / (t : ℚ)) * 100 := by
  constructor
  · constructor
    · intro h
      rw [pullBarShown, Bool.and_eq_true] at h
      obtain ⟨h1, h2⟩ := h
      rcases ht : s.total with _ | t
      · rw [ht] at h1
        simp [jsTruthy] at h1
      · rcases hc : s.completed with _ | c
        · rw [hc] at h2
          simp [jsTruthy] at h2
        · rw [ht] at h1
          rw [hc] at h2
          simp only [jsTruthy, bne_iff_ne, ne_eq] at h1 h2
          exact ⟨t, c, rfl, rfl, h1, h2⟩
    · rintro ⟨t, c, ht, hc, ht0, hc0⟩
      rw [pullBarShown, ht, hc]
      simp [jsTruthy, ht0, hc0]
  · intro t c ht hc ht0 hc0
    have hshown : pullBarShown s = true := by
      rw [pullBarShown, ht, hc]
      simp [jsTruthy, ht0, hc0]
    simp [pullPercentage, hshown, ht, hc]

/-- Witness for C8 amended at a half-downloaded event: 50 of 200 bytes
shows the determinate percentage 25. -/
theorem C8_progress_truthiness_witness :
    pullBarShown (OllamaPullStatus.mk "downloading".data none (some 200) (some 50) none) =
        true ∧
      pullPercentage
          (OllamaPullStatus.mk "downloading".data none (some 200) (some 50) none) =
        ((50 : ℚ) / (200 : ℚ)) * 100 :=
  ⟨by decide,
    (C8_progress_truthiness
        (OllamaPullStatus.mk "downloading".data none (some 200) (some 50) none)).2 200 50
      rfl rfl (by decide) (by decide)⟩
